import Mathlib

/-!
Verification of the anagram generator (Rust sources: src/charcount.rs,
src/charlist.rs, src/acompare.rs, src/main.rs) against its natural-language
specification.  The Rust code is shallowly embedded: each Rust function
becomes a Lean function over the same data; usize / u32 counters become Nat
(the program only ever adds and subtracts letter counts bounded by input
sizes, and the subtraction in PartialMatch is guarded by containment);
Rust panics and divergence are modelled with Option (none = panic or
non-termination).
-/

/-- CharCount holds a count of a single character (src/charcount.rs). -/
structure CharCount where
  letter : Char
  count : Nat
deriving DecidableEq, Repr

/-- Embeds CharCount::new: a count of 1 for the given letter. -/
def CharCount.new (letter : Char) : CharCount :=
  { letter := letter, count := 1 }

/-- CharList stores a list of letters and their counts together with a cached
total length (src/charlist.rs).  The items are meant to be in letter order. -/
structure CharList where
  length : Nat
  list : List CharCount
deriving DecidableEq, Repr

/-- Embeds CharList::new: the empty multiset. -/
def CharList.new : CharList :=
  { length := 0, list := [] }

/-- Embeds CharList::init: a singleton multiset from one CharCount. -/
def CharList.init (count : CharCount) : CharList :=
  { length := count.count, list := [count] }

/-- Walks the second entry list while the first cursor stays on c1; the
parameter f merges the tail behind c1.  Together with combineLists below
this is the merging loop of CharList::combine, split in two so that both
functions are structurally recursive (the Rust loop advances one of two
cursors per iteration). -/
def combineInto (c1 : CharCount) (f : List CharCount → List CharCount) :
    List CharCount → List CharCount
  | [] => c1 :: f []
  | c2 :: t2 =>
    if c1.letter < c2.letter then c1 :: f (c2 :: t2)
    else if c2.letter < c1.letter then c2 :: combineInto c1 f t2
    else { letter := c1.letter, count := c1.count + c2.count } :: f t2

/-- Embeds the merging loop of CharList::combine on the underlying entry
lists.  The Rust loop walks both lists with two cursors and pushes the
smaller-lettered entry, adding counts on equal letters; pushing a copy of an
entry is modelled as consing the entry itself.  The loop satisfies the
equations combineLists [] l2 = l2, combineLists l1 [] = l1 and, on two
conses, the three-way letter comparison (combineLists_cons_cons below). -/
def combineLists : List CharCount → List CharCount → List CharCount
  | [], l2 => l2
  | c1 :: t1, l2 => combineInto c1 (combineLists t1) l2

/-- Embeds CharList::combine: merge the entry lists and add the cached
lengths. -/
def CharList.combine (first second : CharList) : CharList :=
  { length := first.length + second.length, list := combineLists first.list second.list }

/-- Embeds CharList::from_string: fold single-character multisets over the
characters of the string via combine. -/
def CharList.from_string (s : String) : CharList :=
  s.data.foldl (fun acc c => CharList.combine acc (CharList.init (CharCount.new c))) CharList.new

/-- Enum MatchResult holds the result of subtracting one CharList from
another (src/charlist.rs). -/
inductive MatchResult where
  | NoMatch : MatchResult
  | FullMatch : MatchResult
  | PartialMatch : CharList → MatchResult
deriving DecidableEq, Repr

/-- Embeds the loop of CharList::subtract on the underlying entry lists.
The Rust loop accumulates the remainder entries and returns NoMatch from
the middle of the loop when the small list cannot be covered; returning
none models NoMatch, some r models reaching the end with accumulated
remainder r. -/
def subtractAux : List CharCount → List CharCount → Option (List CharCount)
  | [], [] => some []
  | [], _ :: _ => none
  | c1 :: t1, [] =>
    match subtractAux t1 [] with
    | none => none
    | some r => some (c1 :: r)
  | c1 :: t1, c2 :: t2 =>
    if c1.letter < c2.letter then
      match subtractAux t1 (c2 :: t2) with
      | none => none
      | some r => some (c1 :: r)
    else if c2.letter < c1.letter then none
    else if c1.count < c2.count then none
    else if c2.count < c1.count then
      match subtractAux t1 t2 with
      | none => none
      | some r => some ({ letter := c1.letter, count := c1.count - c2.count } :: r)
    else subtractAux t1 t2

/-- Embeds CharList::subtract: run the loop; an empty accumulated remainder
means FullMatch, otherwise a PartialMatch whose cached length is the
difference of the cached lengths. -/
def CharList.subtract (big small : CharList) : MatchResult :=
  match subtractAux big.list small.list with
  | none => MatchResult.NoMatch
  | some [] => MatchResult.FullMatch
  | some (c :: t) => MatchResult.PartialMatch { length := big.length - small.length, list := c :: t }

/-- Embeds the loop of CharList::filter (the boolean variant of subtract)
on the underlying entry lists. -/
def filterAux : List CharCount → List CharCount → Bool
  | [], [] => true
  | [], _ :: _ => false
  | _ :: t1, [] => filterAux t1 []
  | c1 :: t1, c2 :: t2 =>
    if c1.letter < c2.letter then filterAux t1 (c2 :: t2)
    else if c2.letter < c1.letter then false
    else if c1.count < c2.count then false
    else filterAux t1 t2

/-- Embeds CharList::filter. -/
def CharList.filter (big small : CharList) : Bool :=
  filterAux big.list small.list

/-- Boolean check that the entry letters are strictly ascending. -/
def sortedLetters : List CharCount → Bool
  | [] => true
  | [_] => true
  | c1 :: c2 :: t => decide (c1.letter < c2.letter) && sortedLetters (c2 :: t)

/-- Boolean check that every entry count is positive. -/
def positiveCounts (l : List CharCount) : Bool :=
  l.all (fun c => decide (0 < c.count))

/-- Sum of the counts of an entry list. -/
def sumCounts : List CharCount → Nat
  | [] => 0
  | c :: t => c.count + sumCounts t

/-- Well-formedness of a CharList: the LetterMultiset invariants of the
spec (strictly ascending letters, positive counts, cached length equal to
the sum of the counts). -/
def CharList.wf (cl : CharList) : Bool :=
  sortedLetters cl.list && positiveCounts cl.list && decide (cl.length = sumCounts cl.list)

/-- Number of occurrences of the character ch in the multiset denoted by an
entry list (the semantic reading of a CharList). -/
def countOf : List CharCount → Char → Nat
  | [], _ => 0
  | c :: t, ch => (if c.letter = ch then c.count else 0) + countOf t ch

/-- Relation used by filter_candidates to sort candidates: longer
candidates come first (main.rs sorts with c2.length.cmp(&c1.length)). -/
def lenGE (c1 c2 : CharList) : Prop := c2.length ≤ c1.length

instance : DecidableRel lenGE := fun c1 c2 => Nat.decLe c2.length c1.length

instance : IsTotal CharList lenGE := ⟨fun a b => Nat.le_total b.length a.length⟩

instance : IsTrans CharList lenGE := ⟨fun _ _ _ h1 h2 => Nat.le_trans h2 h1⟩

/-- Embeds filter_candidates (main.rs): keep the candidates whose cached
length is at most the goal's and which pass CharList::filter against the
goal, then stable-sort by length descending.  Rust's Vec::sort_by is a
stable sort, and any stable sort with the same comparator produces the same
list, so it is modelled with the stable insertion sort. -/
def filter_candidates (goal : CharList) (candidates : List CharList) : List CharList :=
  (candidates.filter
      (fun c => decide (c.length ≤ goal.length) && CharList.filter goal c)).insertionSort lenGE

/-- Embeds the body of the for-loop of anagram (main.rs): iterate over the
suffixes of the candidate list (index slicing words with the current index),
dispatch on subtract, and in the PartialMatch case recurse through the rec
parameter on the remainder with the slice re-filtered against the current
goal.  The rec parameter is the search at one smaller depth budget. -/
def anagramGo (rec : CharList → List CharList → List (List CharList)) (goal : CharList) :
    List CharList → List (List CharList)
  | [] => []
  | w :: rest =>
    (match CharList.subtract goal w with
     | MatchResult.NoMatch => []
     | MatchResult.FullMatch => [[w]]
     | MatchResult.PartialMatch remains =>
       (rec remains (filter_candidates goal (w :: rest))).map (fun s => w :: s)) ++
    anagramGo rec goal rest

/-- Depth-indexed form of anagram: at budget 0 the Rust function returns an
empty result list. -/
def anagramF : Nat → CharList → List CharList → List (List CharList)
  | 0 => fun _ _ => []
  | l + 1 => fun goal words => anagramGo (anagramF l) goal words

/-- Embeds anagram (main.rs) with its argument order: goal, candidate list,
iteration_level (remaining depth budget). -/
def anagram (goal : CharList) (words : List CharList) (iteration_level : Nat) :
    List (List CharList) :=
  anagramF iteration_level goal words

/-- Summing a sequence of multisets with combine, as the spec reads an
AnagramSequence. -/
def combineAll (seq : List CharList) : CharList :=
  seq.foldr CharList.combine CharList.new

/-- Lookup of the first binding of a key in the association-list model of
the word map. -/
def lookupKey : List (CharList × List String) → CharList → Option (List String)
  | [], _ => none
  | (k, b) :: rest, key => if k = key then some b else lookupKey rest key

/-- Bucket stored under a key, empty if the key is absent. -/
def bucketOf (map : List (CharList × List String)) (key : CharList) : List String :=
  (lookupKey map key).getD []

/-- Embeds the map update of read_words (main.rs): insert a fresh singleton
bucket when the key is absent, otherwise push the word onto the existing
bucket.  The HashMap is modelled as an insertion-ordered association list
with unique keys; bucket contents and key membership are unaffected by the
model choice. -/
def addWord (map : List (CharList × List String)) (key : CharList) (word : String) :
    List (CharList × List String) :=
  if map.any (fun p => decide (p.1 = key)) then
    map.map (fun p => if p.1 = key then (p.1, p.2 ++ [word]) else p)
  else
    map ++ [(key, [word])]

/-- Embeds the per-line step of read_words: a line is indexed exactly when
its raw byte length is strictly greater than minimum_length (Rust
String::len counts UTF-8 bytes); the key is the multiset of the word as
read, with no lowercasing. -/
def readWordsStep (minimum_length : Nat) (map : List (CharList × List String))
    (word : String) : List (CharList × List String) :=
  if minimum_length < word.utf8ByteSize then
    addWord map (CharList.from_string word) word
  else map

/-- Embeds read_words (main.rs) restricted to its pure indexing logic: the
lines already read successfully from the file are folded into the map.  An
I/O error mid-file makes the Rust function return the map built so far,
which is the same fold over the shorter line list. -/
def read_words (lines : List String) (minimum_length : Nat) :
    List (CharList × List String) :=
  lines.foldl (readWordsStep minimum_length) []

/-- Embeds the goal computation of main (main.rs line 349): the goal
multiset is built from the goal string exactly as given on the command
line, with no lowercasing. -/
def main_goal (goal : String) : CharList :=
  CharList.from_string goal

/-- Transposition (src/acompare.rs): a shared run of span characters,
starting at start in the source and at destination in the target. -/
structure Transposition where
  start : Nat
  destination : Nat
  span : Nat
deriving DecidableEq, Repr

/-- Embeds covers (src/acompare.rs): the source ranges and the destination
ranges both overlap. -/
def covers (t1 t2 : Transposition) : Bool :=
  !((decide (t1.start + t1.span ≤ t2.start) || decide (t2.start + t2.span ≤ t1.start)) &&
    (decide (t1.destination + t1.span ≤ t2.destination) ||
     decide (t2.destination + t2.span ≤ t1.destination)))

/-- Embeds the inner fold of maximum_overlap: how many elements of ts cover
t (covers is applied as covers t2 t, the element covering the candidate). -/
def coverCount (ts : List Transposition) (t : Transposition) : Nat :=
  ts.foldl (fun acc t2 => if covers t2 t then acc + 1 else acc) 0

/-- Embeds the selection loop of maximum_overlap: max_count starts at -1
(an i32 in the Rust), so the first element always replaces the initial
max_t; ties keep the earlier element. -/
def maxLoop (ts : List Transposition) :
    List Transposition → Int → Transposition → Transposition
  | [], _, maxT => maxT
  | t :: rest, maxCount, maxT =>
    if maxCount < (coverCount ts t : Int) then maxLoop ts rest (coverCount ts t) t
    else maxLoop ts rest maxCount maxT

/-- Embeds maximum_overlap (src/acompare.rs).  The Rust function indexes
ts[0] before the loop, which panics on an empty vector: that panic is
modelled by none.  Otherwise it removes every element covered by the
selected transposition. -/
def maximum_overlap (ts : List Transposition) : Option (List Transposition) :=
  match ts with
  | [] => none
  | t0 :: _ =>
    some (ts.filter (fun t => !covers (maxLoop ts ts (-1) t0) t))

/-- Embeds the loop of greedy_score.  The Rust loop keeps calling
maximum_overlap until the residual set is empty; none propagates the panic
of maximum_overlap.  When maximum_overlap removes nothing the Rust loop
runs forever with an unchanged set; that divergence is modelled by the
final none branch, which is reached exactly in that situation because
maximum_overlap always returns a sublist of its input. -/
def greedyLoop (next : List Transposition) (count : Nat) : Option Nat :=
  match maximum_overlap next with
  | none => none
  | some news =>
    if news.length = 0 then some count
    else if hlt : news.length < next.length then greedyLoop news (count + 1)
    else none
termination_by next.length
decreasing_by exact hlt

/-- Embeds greedy_score (src/acompare.rs): the iteration count starts at 1. -/
def greedy_score (v : List Transposition) : Option Nat :=
  greedyLoop v 1

/-! Basic lemmas about the semantic count function and the invariants. -/

theorem countOf_cons (c : CharCount) (t : List CharCount) (ch : Char) :
    countOf (c :: t) ch = (if c.letter = ch then c.count else 0) + countOf t ch := rfl

theorem countOf_eq_zero {t : List CharCount} {ch : Char} (h : ∀ c ∈ t, c.letter ≠ ch) :
    countOf t ch = 0 := by
  induction t with
  | nil => rfl
  | cons c t2 ih =>
    rw [countOf_cons, if_neg (h c (List.mem_cons_self c t2)), ih]
    intro c2 h2
    exact h c2 (List.mem_cons_of_mem c h2)

theorem sortedLetters_cons_iff (c : CharCount) (t : List CharCount) :
    sortedLetters (c :: t) = true ↔
      sortedLetters t = true ∧ ∀ c2 ∈ t, c.letter < c2.letter := by
  induction t generalizing c with
  | nil => simp [sortedLetters]
  | cons c2 t2 ih =>
    simp only [sortedLetters, Bool.and_eq_true, decide_eq_true_eq]
    constructor
    · rintro ⟨h1, h2⟩
      refine ⟨h2, ?_⟩
      intro c3 h3
      rcases List.mem_cons.mp h3 with h | h
      · exact h ▸ h1
      · exact lt_trans h1 (((ih c2).mp h2).2 c3 h)
    · rintro ⟨ht, hall⟩
      exact ⟨hall c2 (List.mem_cons_self c2 t2), ht⟩

theorem positiveCounts_iff (l : List CharCount) :
    positiveCounts l = true ↔ ∀ c ∈ l, 0 < c.count := by
  simp [positiveCounts, List.all_eq_true]

theorem countOf_head (c : CharCount) (t : List CharCount)
    (h : sortedLetters (c :: t) = true) : countOf (c :: t) c.letter = c.count := by
  rw [countOf_cons, if_pos rfl,
    countOf_eq_zero (fun c2 h2 => ne_of_gt (((sortedLetters_cons_iff c t).mp h).2 c2 h2))]
  omega

theorem countOf_pos_exists {t : List CharCount} {ch : Char} (h : 0 < countOf t ch) :
    ∃ c ∈ t, c.letter = ch := by
  induction t with
  | nil => simp [countOf] at h
  | cons c t2 ih =>
    rw [countOf_cons] at h
    by_cases hc : c.letter = ch
    · exact ⟨c, List.mem_cons_self c t2, hc⟩
    · rw [if_neg hc] at h
      obtain ⟨c2, h2, h3⟩ := ih (by omega)
      exact ⟨c2, List.mem_cons_of_mem c h2, h3⟩

/-! Equations and semantic lemmas for the combine merge. -/

theorem combineLists_nil_right (l : List CharCount) : combineLists l [] = l := by
  induction l with
  | nil => rfl
  | cons c t ih => show c :: combineLists t [] = c :: t; rw [ih]

theorem combineLists_cons_cons (c1 : CharCount) (t1 : List CharCount) (c2 : CharCount)
    (t2 : List CharCount) :
    combineLists (c1 :: t1) (c2 :: t2) =
      if c1.letter < c2.letter then c1 :: combineLists t1 (c2 :: t2)
      else if c2.letter < c1.letter then c2 :: combineLists (c1 :: t1) t2
      else { letter := c1.letter, count := c1.count + c2.count } :: combineLists t1 t2 := rfl

theorem combineLists_counts (a b : List CharCount) (ch : Char) :
    countOf (combineLists a b) ch = countOf a ch + countOf b ch := by
  induction a generalizing b with
  | nil => simp [combineLists, countOf]
  | cons c1 t1 ih1 =>
    induction b with
    | nil => rw [combineLists_nil_right]; simp [countOf]
    | cons c2 t2 ih2 =>
      rw [combineLists_cons_cons]
      by_cases h1 : c1.letter < c2.letter
      · rw [if_pos h1, countOf_cons, countOf_cons, ih1 (c2 :: t2)]; omega
      · by_cases h2 : c2.letter < c1.letter
        · rw [if_neg h1, if_pos h2, countOf_cons c2, ih2, countOf_cons c2 t2]; omega
        · have he : c1.letter = c2.letter := le_antisymm (not_lt.mp h2) (not_lt.mp h1)
          rw [if_neg h1, if_neg h2]
          rw [countOf_cons, countOf_cons, countOf_cons, ih1 t2]
          simp only [he]
          by_cases h : c2.letter = ch <;>
            simp only [if_pos, if_neg, h, if_true, if_false] <;> omega

theorem combineLists_mem_letter {a b : List CharCount} {c : CharCount}
    (h : c ∈ combineLists a b) :
    (∃ c1 ∈ a, c.letter = c1.letter) ∨ ∃ c2 ∈ b, c.letter = c2.letter := by
  induction a generalizing b with
  | nil => exact Or.inr ⟨c, h, rfl⟩
  | cons c1 t1 ih1 =>
    induction b with
    | nil =>
      rw [combineLists_nil_right] at h
      exact Or.inl ⟨c, h, rfl⟩
    | cons c2 t2 ih2 =>
      rw [combineLists_cons_cons] at h
      by_cases h1 : c1.letter < c2.letter
      · rw [if_pos h1] at h
        rcases List.mem_cons.mp h with h | h
        · exact Or.inl ⟨c1, List.mem_cons_self c1 t1, by rw [h]⟩
        · rcases ih1 h with ⟨c3, h3, h4⟩ | hr
          · exact Or.inl ⟨c3, List.mem_cons_of_mem c1 h3, h4⟩
          · exact Or.inr hr
      · by_cases h2 : c2.letter < c1.letter
        · rw [if_neg h1, if_pos h2] at h
          rcases List.mem_cons.mp h with h | h
          · exact Or.inr ⟨c2, List.mem_cons_self c2 t2, by rw [h]⟩
          · rcases ih2 h with hl | ⟨c3, h3, h4⟩
            · exact Or.inl hl
            · exact Or.inr ⟨c3, List.mem_cons_of_mem c2 h3, h4⟩
        · rw [if_neg h1, if_neg h2] at h
          rcases List.mem_cons.mp h with h | h
          · exact Or.inl ⟨c1, List.mem_cons_self c1 t1, by rw [h]⟩
          · rcases ih1 h with ⟨c3, h3, h4⟩ | ⟨c3, h3, h4⟩
            · exact Or.inl ⟨c3, List.mem_cons_of_mem c1 h3, h4⟩
            · exact Or.inr ⟨c3, List.mem_cons_of_mem c2 h3, h4⟩

theorem combineLists_sorted {a b : List CharCount} (ha : sortedLetters a = true)
    (hb : sortedLetters b = true) : sortedLetters (combineLists a b) = true := by
  induction a generalizing b with
  | nil => exact hb
  | cons c1 t1 ih1 =>
    obtain ⟨ht1, hall1⟩ := (sortedLetters_cons_iff c1 t1).mp ha
    induction b with
    | nil => rw [combineLists_nil_right]; exact ha
    | cons c2 t2 ih2 =>
      obtain ⟨ht2, hall2⟩ := (sortedLetters_cons_iff c2 t2).mp hb
      rw [combineLists_cons_cons]
      by_cases h1 : c1.letter < c2.letter
      · rw [if_pos h1]
        refine (sortedLetters_cons_iff c1 _).mpr ⟨ih1 ht1 hb, ?_⟩
        intro c3 h3
        rcases combineLists_mem_letter h3 with ⟨c4, h4, h5⟩ | ⟨c4, h4, h5⟩
        · rw [h5]; exact hall1 c4 h4
        · rw [h5]
          rcases List.mem_cons.mp h4 with h | h
          · exact h ▸ h1
          · exact lt_trans h1 (hall2 c4 h)
      · by_cases h2 : c2.letter < c1.letter
        · rw [if_neg h1, if_pos h2]
          refine (sortedLetters_cons_iff c2 _).mpr ⟨ih2 ht2, ?_⟩
          intro c3 h3
          rcases combineLists_mem_letter h3 with ⟨c4, h4, h5⟩ | ⟨c4, h4, h5⟩
          · rw [h5]
            rcases List.mem_cons.mp h4 with h | h
            · exact h ▸ h2
            · exact lt_trans h2 (hall1 c4 h)
          · rw [h5]; exact hall2 c4 h4
        · have he : c1.letter = c2.letter := le_antisymm (not_lt.mp h2) (not_lt.mp h1)
          rw [if_neg h1, if_neg h2]
          refine (sortedLetters_cons_iff _ _).mpr ⟨ih1 ht1 ht2, ?_⟩
          intro c3 h3
          rcases combineLists_mem_letter h3 with ⟨c4, h4, h5⟩ | ⟨c4, h4, h5⟩
          · show c1.letter < c3.letter
            rw [h5]; exact hall1 c4 h4
          · show c1.letter < c3.letter
            rw [h5, he]; exact hall2 c4 h4

theorem combineLists_pos {a b : List CharCount} (ha : positiveCounts a = true)
    (hb : positiveCounts b = true) : positiveCounts (combineLists a b) = true := by
  induction a generalizing b with
  | nil => exact hb
  | cons c1 t1 ih1 =>
    have hc1 : 0 < c1.count := (positiveCounts_iff _).mp ha c1 (List.mem_cons_self c1 t1)
    have ht1 : positiveCounts t1 = true := by
      rw [positiveCounts_iff] at ha ⊢
      exact fun c h => ha c (List.mem_cons_of_mem c1 h)
    induction b with
    | nil => rw [combineLists_nil_right]; exact ha
    | cons c2 t2 ih2 =>
      have hc2 : 0 < c2.count := (positiveCounts_iff _).mp hb c2 (List.mem_cons_self c2 t2)
      have ht2 : positiveCounts t2 = true := by
        rw [positiveCounts_iff] at hb ⊢
        exact fun c h => hb c (List.mem_cons_of_mem c2 h)
      rw [combineLists_cons_cons]
      by_cases h1 : c1.letter < c2.letter
      · rw [if_pos h1]
        rw [positiveCounts_iff]
        intro c h
        rcases List.mem_cons.mp h with h | h
        · rw [h]; exact hc1
        · exact (positiveCounts_iff _).mp (ih1 ht1 hb) c h
      · by_cases h2 : c2.letter < c1.letter
        · rw [if_neg h1, if_pos h2]
          rw [positiveCounts_iff]
          intro c h
          rcases List.mem_cons.mp h with h | h
          · rw [h]; exact hc2
          · exact (positiveCounts_iff _).mp (ih2 ht2) c h
        · rw [if_neg h1, if_neg h2]
          rw [positiveCounts_iff]
          intro c h
          rcases List.mem_cons.mp h with h | h
          · rw [h]; show 0 < c1.count + c2.count; omega
          · exact (positiveCounts_iff _).mp (ih1 ht1 ht2) c h

theorem sumCounts_cons (c : CharCount) (t : List CharCount) :
    sumCounts (c :: t) = c.count + sumCounts t := rfl

theorem combineLists_sum (a b : List CharCount) :
    sumCounts (combineLists a b) = sumCounts a + sumCounts b := by
  induction a generalizing b with
  | nil => simp [combineLists, sumCounts]
  | cons c1 t1 ih1 =>
    induction b with
    | nil => rw [combineLists_nil_right]; simp [sumCounts]
    | cons c2 t2 ih2 =>
      rw [combineLists_cons_cons]
      by_cases h1 : c1.letter < c2.letter
      · rw [if_pos h1, sumCounts_cons, ih1 (c2 :: t2), sumCounts_cons c1 t1,
          sumCounts_cons c2 t2]
        omega
      · by_cases h2 : c2.letter < c1.letter
        · rw [if_neg h1, if_pos h2, sumCounts_cons, ih2, sumCounts_cons c2 t2]
          omega
        · rw [if_neg h1, if_neg h2, sumCounts_cons, ih1 t2, sumCounts_cons c1 t1,
            sumCounts_cons c2 t2]
          show c1.count + c2.count + _ = _
          omega

theorem wf_iff (cl : CharList) :
    cl.wf = true ↔
      sortedLetters cl.list = true ∧ positiveCounts cl.list = true ∧
        cl.length = sumCounts cl.list := by
  simp [CharList.wf, Bool.and_eq_true, and_assoc]

theorem CharList.eq_of_fields {x y : CharList} (h1 : x.length = y.length)
    (h2 : x.list = y.list) : x = y := by
  cases x; cases y; simp_all

theorem combine_wf {a b : CharList} (ha : a.wf = true) (hb : b.wf = true) :
    (CharList.combine a b).wf = true := by
  rw [wf_iff] at ha hb ⊢
  refine ⟨combineLists_sorted ha.1 hb.1, combineLists_pos ha.2.1 hb.2.1, ?_⟩
  show a.length + b.length = sumCounts (combineLists a.list b.list)
  rw [combineLists_sum, ha.2.2, hb.2.2]

theorem combine_new_right (a : CharList) : CharList.combine a CharList.new = a := by
  refine CharList.eq_of_fields ?_ ?_
  · show a.length + 0 = a.length; omega
  · show combineLists a.list [] = a.list
    exact combineLists_nil_right a.list

/-! Semantic lemmas for the subtract loop. -/

theorem subtractAux_nil_right (l : List CharCount) : subtractAux l [] = some l := by
  induction l with
  | nil => rfl
  | cons c t ih => simp [subtractAux, ih]

theorem subtractAux_self (l : List CharCount) : subtractAux l l = some [] := by
  induction l with
  | nil => rfl
  | cons c t ih => simp [subtractAux, ih]

theorem subtractAux_counts {b s r : List CharCount} (h : subtractAux b s = some r) :
    ∀ ch, countOf b ch = countOf r ch + countOf s ch := by
  induction b generalizing s r with
  | nil =>
    cases s with
    | nil =>
      intro ch
      simp only [subtractAux, Option.some.injEq] at h
      rw [← h]; rfl
    | cons c2 t2 => simp [subtractAux] at h
  | cons c1 t1 ih =>
    cases s with
    | nil =>
      intro ch
      rw [subtractAux_nil_right] at h
      simp only [Option.some.injEq] at h
      subst h
      simp [countOf]
    | cons c2 t2 =>
      simp only [subtractAux] at h
      by_cases h1 : c1.letter < c2.letter
      · rw [if_pos h1] at h
        cases hs : subtractAux t1 (c2 :: t2) with
        | none => rw [hs] at h; simp at h
        | some r2 =>
          rw [hs] at h
          simp only [Option.some.injEq] at h
          intro ch
          rw [← h, countOf_cons, countOf_cons, ih hs ch]
          omega
      · rw [if_neg h1] at h
        by_cases h2 : c2.letter < c1.letter
        · rw [if_pos h2] at h; simp at h
        · rw [if_neg h2] at h
          have he : c1.letter = c2.letter := le_antisymm (not_lt.mp h2) (not_lt.mp h1)
          by_cases h3 : c1.count < c2.count
          · rw [if_pos h3] at h; simp at h
          · rw [if_neg h3] at h
            by_cases h4 : c2.count < c1.count
            · rw [if_pos h4] at h
              cases hs : subtractAux t1 t2 with
              | none => rw [hs] at h; simp at h
              | some r2 =>
                rw [hs] at h
                simp only [Option.some.injEq] at h
                intro ch
                rw [← h, countOf_cons, countOf_cons, countOf_cons, ih hs ch]
                simp only [he]
                by_cases hc : c2.letter = ch <;>
                  simp only [if_pos, if_neg, hc, if_true, if_false] <;> omega
            · rw [if_neg h4] at h
              intro ch
              have hcc : c1.count = c2.count := by omega
              rw [countOf_cons, countOf_cons, ih h ch, he, hcc]
              omega

theorem subtractAux_sum {b s r : List CharCount} (h : subtractAux b s = some r) :
    sumCounts b = sumCounts r + sumCounts s := by
  induction b generalizing s r with
  | nil =>
    cases s with
    | nil =>
      simp only [subtractAux, Option.some.injEq] at h
      rw [← h]; rfl
    | cons c2 t2 => simp [subtractAux] at h
  | cons c1 t1 ih =>
    cases s with
    | nil =>
      rw [subtractAux_nil_right] at h
      simp only [Option.some.injEq] at h
      subst h
      simp [sumCounts]
    | cons c2 t2 =>
      simp only [subtractAux] at h
      by_cases h1 : c1.letter < c2.letter
      · rw [if_pos h1] at h
        cases hs : subtractAux t1 (c2 :: t2) with
        | none => rw [hs] at h; simp at h
        | some r2 =>
          rw [hs] at h
          simp only [Option.some.injEq] at h
          rw [← h, sumCounts_cons, sumCounts_cons, ih hs, sumCounts_cons]
          omega
      · rw [if_neg h1] at h
        by_cases h2 : c2.letter < c1.letter
        · rw [if_pos h2] at h; simp at h
        · rw [if_neg h2] at h
          by_cases h3 : c1.count < c2.count
          · rw [if_pos h3] at h; simp at h
          · rw [if_neg h3] at h
            by_cases h4 : c2.count < c1.count
            · rw [if_pos h4] at h
              cases hs : subtractAux t1 t2 with
              | none => rw [hs] at h; simp at h
              | some r2 =>
                rw [hs] at h
                simp only [Option.some.injEq] at h
                rw [← h, sumCounts_cons, sumCounts_cons, sumCounts_cons, ih hs]
                dsimp only
                omega
            · rw [if_neg h4] at h
              have hcc : c1.count = c2.count := by omega
              rw [sumCounts_cons, sumCounts_cons, ih h, hcc]
              omega

theorem subtractAux_cons_cons_inv {c1 c2 : CharCount} {t1 t2 r : List CharCount}
    (h : subtractAux (c1 :: t1) (c2 :: t2) = some r) :
    (c1.letter < c2.letter ∧ ∃ r2, subtractAux t1 (c2 :: t2) = some r2 ∧ r = c1 :: r2) ∨
    (c1.letter = c2.letter ∧ c2.count < c1.count ∧
      ∃ r2, subtractAux t1 t2 = some r2 ∧
        r = { letter := c1.letter, count := c1.count - c2.count } :: r2) ∨
    (c1.letter = c2.letter ∧ c1.count = c2.count ∧ subtractAux t1 t2 = some r) := by
  simp only [subtractAux] at h
  by_cases h1 : c1.letter < c2.letter
  · rw [if_pos h1] at h
    cases hs : subtractAux t1 (c2 :: t2) with
    | none => rw [hs] at h; simp at h
    | some r2 =>
      rw [hs] at h
      simp only [Option.some.injEq] at h
      exact Or.inl ⟨h1, r2, rfl, h.symm⟩
  · rw [if_neg h1] at h
    by_cases h2 : c2.letter < c1.letter
    · rw [if_pos h2] at h; simp at h
    · rw [if_neg h2] at h
      have he : c1.letter = c2.letter := le_antisymm (not_lt.mp h2) (not_lt.mp h1)
      by_cases h3 : c1.count < c2.count
      · rw [if_pos h3] at h; simp at h
      · rw [if_neg h3] at h
        by_cases h4 : c2.count < c1.count
        · rw [if_pos h4] at h
          cases hs : subtractAux t1 t2 with
          | none => rw [hs] at h; simp at h
          | some r2 =>
            rw [hs] at h
            simp only [Option.some.injEq] at h
            exact Or.inr (Or.inl ⟨he, h4, r2, rfl, h.symm⟩)
        · rw [if_neg h4] at h
          exact Or.inr (Or.inr ⟨he, by omega, h⟩)

theorem subtractAux_pos {b s r : List CharCount} (h : subtractAux b s = some r)
    (hb : positiveCounts b = true) : positiveCounts r = true := by
  induction b generalizing s r with
  | nil =>
    cases s with
    | nil =>
      simp only [subtractAux, Option.some.injEq] at h
      rw [← h]; rfl
    | cons c2 t2 => simp [subtractAux] at h
  | cons c1 t1 ih =>
    have hc1 : 0 < c1.count := (positiveCounts_iff _).mp hb c1 (List.mem_cons_self c1 t1)
    have ht1 : positiveCounts t1 = true := by
      rw [positiveCounts_iff] at hb ⊢
      exact fun c hc => hb c (List.mem_cons_of_mem c1 hc)
    cases s with
    | nil =>
      rw [subtractAux_nil_right] at h
      simp only [Option.some.injEq] at h
      subst h
      exact hb
    | cons c2 t2 =>
      rcases subtractAux_cons_cons_inv h with
        ⟨_, r2, hs, hr⟩ | ⟨_, h4, r2, hs, hr⟩ | ⟨_, _, hs⟩
      · subst hr
        rw [positiveCounts_iff]
        intro c hc
        rcases List.mem_cons.mp hc with hc | hc
        · rw [hc]; exact hc1
        · exact (positiveCounts_iff _).mp (ih hs ht1) c hc
      · subst hr
        rw [positiveCounts_iff]
        intro c hc
        rcases List.mem_cons.mp hc with hc | hc
        · rw [hc]; show 0 < c1.count - c2.count; omega
        · exact (positiveCounts_iff _).mp (ih hs ht1) c hc
      · exact ih hs ht1

theorem subtractAux_mem_letter {b s r : List CharCount} (h : subtractAux b s = some r) :
    ∀ c ∈ r, ∃ c1 ∈ b, c.letter = c1.letter := by
  induction b generalizing s r with
  | nil =>
    cases s with
    | nil =>
      simp only [subtractAux, Option.some.injEq] at h
      rw [← h]
      intro c hc
      simp at hc
    | cons c2 t2 => simp [subtractAux] at h
  | cons c1 t1 ih =>
    cases s with
    | nil =>
      rw [subtractAux_nil_right] at h
      simp only [Option.some.injEq] at h
      subst h
      intro c hc
      exact ⟨c, hc, rfl⟩
    | cons c2 t2 =>
      rcases subtractAux_cons_cons_inv h with
        ⟨_, r2, hs, hr⟩ | ⟨_, _, r2, hs, hr⟩ | ⟨_, _, hs⟩
      · subst hr
        intro c hc
        rcases List.mem_cons.mp hc with hc | hc
        · exact ⟨c1, List.mem_cons_self c1 t1, by rw [hc]⟩
        · obtain ⟨c3, h3, h4⟩ := ih hs c hc
          exact ⟨c3, List.mem_cons_of_mem c1 h3, h4⟩
      · subst hr
        intro c hc
        rcases List.mem_cons.mp hc with hc | hc
        · exact ⟨c1, List.mem_cons_self c1 t1, by rw [hc]⟩
        · obtain ⟨c3, h3, h4⟩ := ih hs c hc
          exact ⟨c3, List.mem_cons_of_mem c1 h3, h4⟩
      · intro c hc
        obtain ⟨c3, h3, h4⟩ := ih hs c hc
        exact ⟨c3, List.mem_cons_of_mem c1 h3, h4⟩

theorem subtractAux_sorted {b s r : List CharCount} (h : subtractAux b s = some r)
    (hb : sortedLetters b = true) : sortedLetters r = true := by
  induction b generalizing s r with
  | nil =>
    cases s with
    | nil =>
      simp only [subtractAux, Option.some.injEq] at h
      rw [← h]; rfl
    | cons c2 t2 => simp [subtractAux] at h
  | cons c1 t1 ih =>
    obtain ⟨ht1, hall1⟩ := (sortedLetters_cons_iff c1 t1).mp hb
    cases s with
    | nil =>
      rw [subtractAux_nil_right] at h
      simp only [Option.some.injEq] at h
      subst h
      exact hb
    | cons c2 t2 =>
      rcases subtractAux_cons_cons_inv h with
        ⟨_, r2, hs, hr⟩ | ⟨_, _, r2, hs, hr⟩ | ⟨_, _, hs⟩
      · subst hr
        refine (sortedLetters_cons_iff c1 r2).mpr ⟨ih hs ht1, ?_⟩
        intro c hc
        obtain ⟨c3, h3, h4⟩ := subtractAux_mem_letter hs c hc
        rw [h4]; exact hall1 c3 h3
      · subst hr
        refine (sortedLetters_cons_iff _ r2).mpr ⟨ih hs ht1, ?_⟩
        intro c hc
        obtain ⟨c3, h3, h4⟩ := subtractAux_mem_letter hs c hc
        show c1.letter < c.letter
        rw [h4]; exact hall1 c3 h3
      · exact ih hs ht1

theorem subtractAux_eq_some_nil {b s : List CharCount}
    (h : subtractAux b s = some []) : b = s := by
  induction b generalizing s with
  | nil =>
    cases s with
    | nil => rfl
    | cons c2 t2 => simp [subtractAux] at h
  | cons c1 t1 ih =>
    cases s with
    | nil =>
      rw [subtractAux_nil_right] at h
      simp at h
    | cons c2 t2 =>
      rcases subtractAux_cons_cons_inv h with
        ⟨_, r2, _, hr⟩ | ⟨_, _, r2, _, hr⟩ | ⟨he, hcc, hs⟩
      · simp at hr
      · simp at hr
      · have ht : t1 = t2 := ih hs
        have hc : c1 = c2 := by
          cases c1; cases c2; simp_all
        rw [ht, hc]

theorem subtractAux_none_exists {b s : List CharCount} (h : subtractAux b s = none)
    (hb : sortedLetters b = true) (hs : sortedLetters s = true)
    (hps : positiveCounts s = true) :
    ∃ ch, countOf b ch < countOf s ch := by
  induction b generalizing s with
  | nil =>
    cases s with
    | nil => simp [subtractAux] at h
    | cons c2 t2 =>
      refine ⟨c2.letter, ?_⟩
      rw [countOf_head c2 t2 hs]
      show countOf [] c2.letter < c2.count
      have := (positiveCounts_iff _).mp hps c2 (List.mem_cons_self c2 t2)
      simp [countOf]
      omega
  | cons c1 t1 ih =>
    obtain ⟨ht1, hall1⟩ := (sortedLetters_cons_iff c1 t1).mp hb
    cases s with
    | nil =>
      rw [subtractAux_nil_right] at h
      simp at h
    | cons c2 t2 =>
      obtain ⟨ht2, hall2⟩ := (sortedLetters_cons_iff c2 t2).mp hs
      have hps2 : positiveCounts t2 = true := by
        rw [positiveCounts_iff] at hps ⊢
        exact fun c hc => hps c (List.mem_cons_of_mem c2 hc)
      simp only [subtractAux] at h
      by_cases h1 : c1.letter < c2.letter
      · rw [if_pos h1] at h
        cases hrec : subtractAux t1 (c2 :: t2) with
        | some r2 => rw [hrec] at h; simp at h
        | none =>
          obtain ⟨ch, hch⟩ := ih hrec ht1 hs hps
          have hne : c1.letter ≠ ch := by
            intro hcontra
            have hz : countOf (c2 :: t2) ch = 0 := by
              refine countOf_eq_zero ?_
              intro c hc
              rcases List.mem_cons.mp hc with hc | hc
              · rw [hc, ← hcontra]; exact ne_of_gt h1
              · rw [← hcontra]; exact ne_of_gt (lt_trans h1 (hall2 c hc))
            omega
          refine ⟨ch, ?_⟩
          rw [countOf_cons, if_neg hne]
          omega
      · rw [if_neg h1] at h
        by_cases h2 : c2.letter < c1.letter
        · refine ⟨c2.letter, ?_⟩
          rw [countOf_head c2 t2 hs]
          have hz : countOf (c1 :: t1) c2.letter = 0 := by
            refine countOf_eq_zero ?_
            intro c hc
            rcases List.mem_cons.mp hc with hc | hc
            · rw [hc]; exact ne_of_gt h2
            · exact ne_of_gt (lt_trans h2 (hall1 c hc))
          have := (positiveCounts_iff _).mp hps c2 (List.mem_cons_self c2 t2)
          omega
        · rw [if_neg h2] at h
          have he : c1.letter = c2.letter := le_antisymm (not_lt.mp h2) (not_lt.mp h1)
          have main : subtractAux t1 t2 = none → ∃ ch, countOf (c1 :: t1) ch < countOf (c2 :: t2) ch := by
            intro hrec
            obtain ⟨ch, hch⟩ := ih hrec ht1 ht2 hps2
            have hne : c1.letter ≠ ch := by
              intro hcontra
              have hz : countOf t2 ch = 0 := by
                refine countOf_eq_zero ?_
                intro c hc
                rw [← hcontra, he]
                exact ne_of_gt (hall2 c hc)
              omega
            refine ⟨ch, ?_⟩
            rw [countOf_cons, if_neg hne, countOf_cons, if_neg (by rw [← he]; exact hne)]
            omega
          by_cases h3 : c1.count < c2.count
          · refine ⟨c1.letter, ?_⟩
            rw [countOf_head c1 t1 hb]
            have : countOf (c2 :: t2) c1.letter = c2.count := by
              rw [he]; exact countOf_head c2 t2 hs
            omega
          · rw [if_neg h3] at h
            by_cases h4 : c2.count < c1.count
            · rw [if_pos h4] at h
              cases hrec : subtractAux t1 t2 with
              | some r2 => rw [hrec] at h; simp at h
              | none => exact main hrec
            · rw [if_neg h4] at h
              exact main h

/-! The boolean filter agrees with subtract succeeding. -/

theorem filterAux_eq_isSome (b s : List CharCount) :
    filterAux b s = (subtractAux b s).isSome := by
  induction b generalizing s with
  | nil =>
    cases s with
    | nil => rfl
    | cons c2 t2 => rfl
  | cons c1 t1 ih =>
    cases s with
    | nil =>
      show filterAux t1 [] = _
      rw [ih []]
      cases hs : subtractAux t1 [] with
      | none => simp [subtractAux, hs]
      | some r => simp [subtractAux, hs]
    | cons c2 t2 =>
      simp only [filterAux, subtractAux]
      by_cases h1 : c1.letter < c2.letter
      · rw [if_pos h1, if_pos h1, ih (c2 :: t2)]
        cases hs : subtractAux t1 (c2 :: t2) with
        | none => simp [hs]
        | some r => simp [hs]
      · rw [if_neg h1, if_neg h1]
        by_cases h2 : c2.letter < c1.letter
        · rw [if_pos h2, if_pos h2]; rfl
        · rw [if_neg h2, if_neg h2]
          by_cases h3 : c1.count < c2.count
          · rw [if_pos h3, if_pos h3]; rfl
          · rw [if_neg h3, if_neg h3, ih t2]
            by_cases h4 : c2.count < c1.count
            · rw [if_pos h4]
              cases hs : subtractAux t1 t2 with
              | none => simp [hs]
              | some r => simp [hs]
            · rw [if_neg h4]

/-! Extensionality: two well-formed entry lists with the same counts are
equal. -/

theorem countOf_ext {a b : List CharCount} (ha : sortedLetters a = true)
    (hb : sortedLetters b = true) (hpa : positiveCounts a = true)
    (hpb : positiveCounts b = true) (h : ∀ ch, countOf a ch = countOf b ch) :
    a = b := by
  induction a generalizing b with
  | nil =>
    cases b with
    | nil => rfl
    | cons c2 t2 =>
      have h2 := h c2.letter
      rw [countOf_head c2 t2 hb] at h2
      have := (positiveCounts_iff _).mp hpb c2 (List.mem_cons_self c2 t2)
      simp [countOf] at h2
      omega
  | cons c1 t1 ih =>
    obtain ⟨ht1, hall1⟩ := (sortedLetters_cons_iff c1 t1).mp ha
    have hpt1 : positiveCounts t1 = true := by
      rw [positiveCounts_iff] at hpa ⊢
      exact fun c hc => hpa c (List.mem_cons_of_mem c1 hc)
    have hc1 : 0 < c1.count := (positiveCounts_iff _).mp hpa c1 (List.mem_cons_self c1 t1)
    cases b with
    | nil =>
      have h2 := h c1.letter
      rw [countOf_head c1 t1 ha] at h2
      simp [countOf] at h2
      omega
    | cons c2 t2 =>
      obtain ⟨ht2, hall2⟩ := (sortedLetters_cons_iff c2 t2).mp hb
      have hpt2 : positiveCounts t2 = true := by
        rw [positiveCounts_iff] at hpb ⊢
        exact fun c hc => hpb c (List.mem_cons_of_mem c2 hc)
      have hc2 : 0 < c2.count := (positiveCounts_iff _).mp hpb c2 (List.mem_cons_self c2 t2)
      have he : c1.letter = c2.letter := by
        by_contra hne
        rcases lt_or_gt_of_ne hne with hlt | hgt
        · have h2 := h c1.letter
          rw [countOf_head c1 t1 ha] at h2
          have hz : countOf (c2 :: t2) c1.letter = 0 := by
            refine countOf_eq_zero ?_
            intro c hc
            rcases List.mem_cons.mp hc with hc | hc
            · rw [hc]; exact ne_of_gt hlt
            · exact ne_of_gt (lt_trans hlt (hall2 c hc))
          omega
        · have h2 := h c2.letter
          rw [countOf_head c2 t2 hb] at h2
          have hz : countOf (c1 :: t1) c2.letter = 0 := by
            refine countOf_eq_zero ?_
            intro c hc
            rcases List.mem_cons.mp hc with hc | hc
            · rw [hc]; exact ne_of_gt hgt
            · exact ne_of_gt (lt_trans hgt (hall1 c hc))
          omega
      have hcc : c1.count = c2.count := by
        have h2 := h c1.letter
        rw [countOf_head c1 t1 ha, he, countOf_head c2 t2 hb] at h2
        exact h2
      have htail : ∀ ch, countOf t1 ch = countOf t2 ch := by
        intro ch
        have h2 := h ch
        rw [countOf_cons, countOf_cons] at h2
        by_cases hch : c1.letter = ch
        · have hz1 : countOf t1 ch = 0 :=
            countOf_eq_zero (fun c hc => by rw [← hch]; exact ne_of_gt (hall1 c hc))
          have hz2 : countOf t2 ch = 0 :=
            countOf_eq_zero (fun c hc => by rw [← hch, he]; exact ne_of_gt (hall2 c hc))
          rw [hz1, hz2]
        · rw [if_neg hch, if_neg (by rw [← he]; exact hch)] at h2
          omega
      have hce : c1 = c2 := by
        cases c1; cases c2; simp_all
      rw [hce, ih ht1 ht2 hpt1 hpt2 htail]

/-! CharList-level consequences for subtract. -/

theorem subtract_eq_noMatch_iff {big small : CharList} (hb : big.wf = true)
    (hs : small.wf = true) :
    CharList.subtract big small = MatchResult.NoMatch ↔
      ∃ ch, countOf big.list ch < countOf small.list ch := by
  obtain ⟨hsb, hpb, _⟩ := (wf_iff big).mp hb
  obtain ⟨hss, hps, _⟩ := (wf_iff small).mp hs
  unfold CharList.subtract
  cases h : subtractAux big.list small.list with
  | none =>
    simp only [true_iff]
    exact subtractAux_none_exists h hsb hss hps
  | some r =>
    have hc := subtractAux_counts h
    have : ¬ ∃ ch, countOf big.list ch < countOf small.list ch := by
      rintro ⟨ch, hch⟩
      have := hc ch
      omega
    cases r with
    | nil => simpa using this
    | cons c t => simpa using this

theorem subtract_eq_fullMatch_iff {big small : CharList} (hb : big.wf = true)
    (hs : small.wf = true) :
    CharList.subtract big small = MatchResult.FullMatch ↔ big = small := by
  obtain ⟨hsb, hpb, hlb⟩ := (wf_iff big).mp hb
  obtain ⟨hss, hps, hls⟩ := (wf_iff small).mp hs
  constructor
  · intro h
    unfold CharList.subtract at h
    cases hsub : subtractAux big.list small.list with
    | none => rw [hsub] at h; simp at h
    | some r =>
      cases r with
      | nil =>
        have hl : big.list = small.list := subtractAux_eq_some_nil hsub
        refine CharList.eq_of_fields ?_ hl
        rw [hlb, hls, hl]
      | cons c t =>
        rw [hsub] at h
        simp at h
  · intro h
    rw [h]
    unfold CharList.subtract
    rw [subtractAux_self]

theorem subtract_remainder_inv {big small r : CharList}
    (h : CharList.subtract big small = MatchResult.PartialMatch r) :
    subtractAux big.list small.list = some r.list ∧
      r.length = big.length - small.length ∧ r.list ≠ [] := by
  unfold CharList.subtract at h
  cases hsub : subtractAux big.list small.list with
  | none => rw [hsub] at h; simp at h
  | some l =>
    cases l with
    | nil => rw [hsub] at h; simp at h
    | cons c t =>
      rw [hsub] at h
      simp only [MatchResult.PartialMatch.injEq] at h
      rw [← h]
      exact ⟨rfl, rfl, by simp⟩

theorem subtract_remainder_wf {big small r : CharList} (hb : big.wf = true)
    (hs : small.wf = true) (h : CharList.subtract big small = MatchResult.PartialMatch r) :
    r.wf = true := by
  obtain ⟨hsb, hpb, hlb⟩ := (wf_iff big).mp hb
  obtain ⟨hss, hps, hls⟩ := (wf_iff small).mp hs
  obtain ⟨hsub, hlen, _⟩ := subtract_remainder_inv h
  refine (wf_iff r).mpr ⟨subtractAux_sorted hsub hsb, subtractAux_pos hsub hpb, ?_⟩
  have hsum := subtractAux_sum hsub
  omega

theorem subtract_remainder_combine {big small r : CharList} (hb : big.wf = true)
    (hs : small.wf = true) (h : CharList.subtract big small = MatchResult.PartialMatch r) :
    CharList.combine small r = big := by
  have hr := subtract_remainder_wf hb hs h
  obtain ⟨hsb, hpb, hlb⟩ := (wf_iff big).mp hb
  obtain ⟨hss, hps, hls⟩ := (wf_iff small).mp hs
  obtain ⟨hsr, hpr, hlr⟩ := (wf_iff r).mp hr
  obtain ⟨hsub, hlen, _⟩ := subtract_remainder_inv h
  have hsum := subtractAux_sum hsub
  refine CharList.eq_of_fields ?_ ?_
  · show small.length + r.length = big.length
    omega
  · show combineLists small.list r.list = big.list
    refine countOf_ext (combineLists_sorted hss hsr) hsb
      (combineLists_pos hps hpr) hpb ?_
    intro ch
    rw [combineLists_counts]
    have := subtractAux_counts hsub ch
    omega

/-! Lemmas about the candidate filter and the search. -/

theorem mem_filter_candidates {goal c : CharList} {cands : List CharList} :
    c ∈ filter_candidates goal cands ↔
      c ∈ cands ∧ c.length ≤ goal.length ∧ CharList.filter goal c = true := by
  unfold filter_candidates
  rw [List.Perm.mem_iff (List.perm_insertionSort lenGE _)]
  simp [List.mem_filter, Bool.and_eq_true, and_assoc]

theorem combineAll_cons (w : CharList) (seq : List CharList) :
    combineAll (w :: seq) = CharList.combine w (combineAll seq) := rfl

theorem anagramGo_sound (rec : CharList → List CharList → List (List CharList))
    (hrec : ∀ g ws, g.wf = true → (∀ w ∈ ws, w.wf = true) →
      ∀ seq ∈ rec g ws, combineAll seq = g) :
    ∀ goal words, goal.wf = true → (∀ w ∈ words, w.wf = true) →
      ∀ seq ∈ anagramGo rec goal words, combineAll seq = goal := by
  intro goal words hg
  induction words with
  | nil =>
    intro _ seq hseq
    simp [anagramGo] at hseq
  | cons w rest ih =>
    intro hw seq hseq
    have hww : w.wf = true := hw w (List.mem_cons_self w rest)
    have hwrest : ∀ x ∈ rest, x.wf = true :=
      fun x hx => hw x (List.mem_cons_of_mem w hx)
    simp only [anagramGo] at hseq
    rcases List.mem_append.mp hseq with hseq | hseq
    · cases hsub : CharList.subtract goal w with
      | NoMatch => rw [hsub] at hseq; simp at hseq
      | FullMatch =>
        rw [hsub] at hseq
        simp only [List.mem_singleton] at hseq
        subst hseq
        have hgw : goal = w := (subtract_eq_fullMatch_iff hg hww).mp hsub
        rw [combineAll_cons]
        show CharList.combine w (combineAll []) = goal
        have : combineAll [] = CharList.new := rfl
        rw [this, combine_new_right, hgw]
      | PartialMatch remains =>
        rw [hsub] at hseq
        simp only [List.mem_map] at hseq
        obtain ⟨seq2, hseq2, hcons⟩ := hseq
        have hrw : remains.wf = true := subtract_remainder_wf hg hww hsub
        have hfil : ∀ c ∈ filter_candidates goal (w :: rest), c.wf = true :=
          fun c hc => hw c (mem_filter_candidates.mp hc).1
        have hrec2 := hrec remains (filter_candidates goal (w :: rest)) hrw hfil seq2 hseq2
        rw [← hcons, combineAll_cons, hrec2]
        exact subtract_remainder_combine hg hww hsub
    · exact ih hwrest seq hseq

theorem anagramF_sound (level : Nat) :
    ∀ goal words, goal.wf = true → (∀ w ∈ words, w.wf = true) →
      ∀ seq ∈ anagramF level goal words, combineAll seq = goal := by
  induction level with
  | zero =>
    intro goal words _ _ seq hseq
    simp [anagramF] at hseq
  | succ l ih =>
    intro goal words hg hw seq hseq
    exact anagramGo_sound (anagramF l) ih goal words hg hw seq hseq

/-! Lemmas about the association-list model of the word map. -/

theorem lookupKey_isSome_iff_any (map : List (CharList × List String)) (k : CharList) :
    (lookupKey map k).isSome = map.any (fun p => decide (p.1 = k)) := by
  induction map with
  | nil => rfl
  | cons p rest ih =>
    obtain ⟨k1, b1⟩ := p
    simp only [lookupKey, List.any_cons]
    by_cases h : k1 = k
    · simp [h]
    · simp [h, ih]

theorem lookupKey_mapUpd (map : List (CharList × List String)) (key : CharList) (w : String)
    (k : CharList) :
    lookupKey (map.map (fun p => if p.1 = key then (p.1, p.2 ++ [w]) else p)) k =
      (lookupKey map k).map (fun b => if key = k then b ++ [w] else b) := by
  induction map with
  | nil => rfl
  | cons p rest ih =>
    obtain ⟨k1, b1⟩ := p
    simp only [List.map_cons]
    by_cases h1 : k1 = key
    · rw [if_pos (by simpa using h1)]
      show lookupKey ((k1, b1 ++ [w]) :: _) k = _
      by_cases h2 : k1 = k
      · have hkey : key = k := by rw [← h1, h2]
        simp only [lookupKey, if_pos h2, if_pos hkey]
        rfl
      · have hkey : ¬ (key = k) := by rw [← h1]; exact h2
        simp only [lookupKey, if_neg h2, ih]
    · rw [if_neg (by simpa using h1)]
      by_cases h2 : k1 = k
      · have hkey : ¬ (key = k) := by
          intro hc
          exact h1 (by rw [h2, hc])
        simp only [lookupKey, if_pos h2, if_neg hkey]
        rfl
      · simp only [lookupKey, if_neg h2, ih]

theorem lookupKey_append_single (map : List (CharList × List String)) (key : CharList)
    (w : String) (k : CharList) :
    lookupKey (map ++ [(key, [w])]) k =
      match lookupKey map k with
      | some b => some b
      | none => if key = k then some [w] else none := by
  induction map with
  | nil => rfl
  | cons p rest ih =>
    obtain ⟨k1, b1⟩ := p
    by_cases h2 : k1 = k
    · simp only [List.cons_append, lookupKey, if_pos h2]
    · simp only [List.cons_append, lookupKey, if_neg h2]
      exact ih

theorem bucketOf_addWord (map : List (CharList × List String)) (key k : CharList)
    (w : String) :
    bucketOf (addWord map key w) k = bucketOf map k ++ (if key = k then [w] else []) := by
  unfold addWord
  by_cases hany : map.any (fun p => decide (p.1 = key)) = true
  · rw [if_pos hany]
    unfold bucketOf
    rw [lookupKey_mapUpd]
    cases hl : lookupKey map k with
    | none =>
      by_cases hk : key = k
      · subst hk
        rw [← lookupKey_isSome_iff_any, hl] at hany
        simp at hany
      · simp [hk]
    | some b => by_cases hk : key = k <;> simp [hk]
  · rw [if_neg hany]
    unfold bucketOf
    rw [lookupKey_append_single]
    cases hl : lookupKey map k with
    | some b =>
      by_cases hk : key = k
      · subst hk
        rw [← lookupKey_isSome_iff_any, hl] at hany
        simp at hany
      · simp [hk]
    | none =>
      by_cases hk : key = k <;> simp [hk]

theorem bucketOf_foldl (m : Nat) (lines : List String) :
    ∀ (map : List (CharList × List String)) (k : CharList),
      bucketOf (lines.foldl (readWordsStep m) map) k =
        bucketOf map k ++
          lines.filter
            (fun w => decide (m < w.utf8ByteSize) && decide (CharList.from_string w = k)) := by
  induction lines with
  | nil => intro map k; simp
  | cons w rest ih =>
    intro map k
    rw [List.foldl_cons, ih]
    show bucketOf (readWordsStep m map w) k ++ _ = _
    unfold readWordsStep
    rw [List.filter_cons]
    by_cases hacc : m < w.utf8ByteSize
    · rw [if_pos hacc, bucketOf_addWord]
      by_cases hk : CharList.from_string w = k
      · simp [hacc, hk]
      · simp [hacc, hk]
    · rw [if_neg hacc]
      simp [hacc]

theorem keys_addWord (map : List (CharList × List String)) (key : CharList) (w : String) :
    (addWord map key w).map Prod.fst =
      if map.any (fun p => decide (p.1 = key)) then map.map Prod.fst
      else map.map Prod.fst ++ [key] := by
  unfold addWord
  by_cases hany : map.any (fun p => decide (p.1 = key)) = true
  · rw [if_pos hany, if_pos hany, List.map_map]
    congr 1
    funext p
    by_cases h : p.1 = key <;> simp [h]
  · rw [if_neg hany, if_neg hany]
    simp

theorem keys_nodup_foldl (m : Nat) (lines : List String) :
    ∀ map : List (CharList × List String), (map.map Prod.fst).Nodup →
      ((lines.foldl (readWordsStep m) map).map Prod.fst).Nodup := by
  induction lines with
  | nil => intro map h; exact h
  | cons w rest ih =>
    intro map hmap
    rw [List.foldl_cons]
    apply ih
    unfold readWordsStep
    by_cases hacc : m < w.utf8ByteSize
    · rw [if_pos hacc, keys_addWord]
      by_cases hany :
          map.any (fun p => decide (p.1 = CharList.from_string w)) = true
      · rw [if_pos hany]; exact hmap
      · rw [if_neg hany]
        rw [List.nodup_append]
        refine ⟨hmap, List.nodup_singleton _, ?_⟩
        intro a ha hb
        simp only [List.mem_singleton] at hb
        subst hb
        obtain ⟨p, hp, hpa⟩ := List.mem_map.mp ha
        rw [List.any_eq_true] at hany
        exact hany ⟨p, hp, by simp [hpa]⟩
    · rw [if_neg hacc]
      exact hmap

theorem mem_addWord {map : List (CharList × List String)} {key : CharList} {w : String}
    {k : CharList} {b : List String} (h : (k, b) ∈ addWord map key w) :
    (k, b) ∈ map ∨ (∃ b0, (k, b0) ∈ map ∧ k = key ∧ b = b0 ++ [w]) ∨
      (k = key ∧ b = [w]) := by
  unfold addWord at h
  by_cases hany : map.any (fun p => decide (p.1 = key)) = true
  · rw [if_pos hany] at h
    obtain ⟨p, hp, hup⟩ := List.mem_map.mp h
    by_cases h1 : p.1 = key
    · rw [if_pos h1] at hup
      have hk : p.1 = k := congrArg Prod.fst hup
      have hb : p.2 ++ [w] = b := congrArg Prod.snd hup
      refine Or.inr (Or.inl ⟨p.2, ?_, by rw [← hk, h1], hb.symm⟩)
      rw [← hk]
      exact hp
    · rw [if_neg h1] at hup
      rw [← hup]
      exact Or.inl hp
  · rw [if_neg hany] at h
    rcases List.mem_append.mp h with h | h
    · exact Or.inl h
    · simp only [List.mem_singleton, Prod.mk.injEq] at h
      exact Or.inr (Or.inr ⟨h.1, h.2⟩)

theorem key_raw_foldl (m : Nat) (lines : List String) :
    ∀ map : List (CharList × List String),
      (∀ k b, (k, b) ∈ map → ∀ w ∈ b, k = CharList.from_string w) →
      ∀ k b, (k, b) ∈ lines.foldl (readWordsStep m) map →
        ∀ w ∈ b, k = CharList.from_string w := by
  induction lines with
  | nil => intro map h; exact h
  | cons w0 rest ih =>
    intro map hmap
    rw [List.foldl_cons]
    apply ih
    intro k b hkb w hw
    unfold readWordsStep at hkb
    by_cases hacc : m < w0.utf8ByteSize
    · rw [if_pos hacc] at hkb
      rcases mem_addWord hkb with h | ⟨b0, hb0, hk, hb⟩ | ⟨hk, hb⟩
      · exact hmap k b h w hw
      · subst hb
        rcases List.mem_append.mp hw with hw | hw
        · exact hmap k b0 hb0 w hw
        · simp only [List.mem_singleton] at hw
          subst hw
          exact hk
      · subst hb
        simp only [List.mem_singleton] at hw
        subst hw
        exact hk
    · rw [if_neg hacc] at hkb
      exact hmap k b hkb w hw

/-! Lemmas for the transposition scorer. -/

theorem covers_self {t : Transposition} (h : 1 ≤ t.span) : covers t t = true := by
  simp only [covers, Bool.not_eq_true']
  simp only [Bool.and_eq_false_iff, Bool.or_eq_false_iff, decide_eq_false_iff_not, not_le]
  left
  constructor <;> omega

theorem maxLoop_mem (ts : List Transposition) :
    ∀ (l : List Transposition) (mc : Int) (maxT : Transposition), maxT ∈ ts →
      (∀ t ∈ l, t ∈ ts) → maxLoop ts l mc maxT ∈ ts := by
  intro l
  induction l with
  | nil => intro mc maxT hm _; exact hm
  | cons t rest ih =>
    intro mc maxT hm hl
    show (if mc < (coverCount ts t : Int) then _ else _) ∈ ts
    by_cases h : mc < (coverCount ts t : Int)
    · rw [if_pos h]
      exact ih _ t (hl t (List.mem_cons_self t rest))
        (fun x hx => hl x (List.mem_cons_of_mem t hx))
    · rw [if_neg h]
      exact ih _ maxT hm (fun x hx => hl x (List.mem_cons_of_mem t hx))

theorem length_filter_lt {α : Type} {p : α → Bool} :
    ∀ {l : List α} {a : α}, a ∈ l → p a = false → (l.filter p).length < l.length := by
  intro l a hl hp
  induction l with
  | nil => simp at hl
  | cons b t ih =>
    rcases List.mem_cons.mp hl with h | h
    · subst h
      simp [List.filter_cons, hp]
      have := List.length_filter_le p t
      omega
    · have := ih h
      by_cases hb : p b <;> simp [List.filter_cons, hb] <;> omega

theorem maximum_overlap_shrink {ts : List Transposition} (h1 : ts ≠ [])
    (h2 : ∀ t ∈ ts, 1 ≤ t.span) :
    ∀ news, maximum_overlap ts = some news →
      news.length < ts.length ∧ ∀ t ∈ news, t ∈ ts := by
  intro news hmo
  cases ts with
  | nil => exact absurd rfl h1
  | cons t0 rest =>
    simp only [maximum_overlap, Option.some.injEq] at hmo
    subst hmo
    constructor
    · have hmem : maxLoop (t0 :: rest) (t0 :: rest) (-1) t0 ∈ t0 :: rest :=
        maxLoop_mem (t0 :: rest) (t0 :: rest) (-1) t0 (List.mem_cons_self t0 rest)
          (fun x hx => hx)
      have hcov : covers (maxLoop (t0 :: rest) (t0 :: rest) (-1) t0)
          (maxLoop (t0 :: rest) (t0 :: rest) (-1) t0) = true :=
        covers_self (h2 _ hmem)
      refine length_filter_lt hmem ?_
      simp [hcov]
    · intro t ht
      exact (List.mem_filter.mp ht).1

theorem greedyLoop_isSome (n : Nat) :
    ∀ next : List Transposition, ∀ count : Nat, next.length ≤ n → next ≠ [] →
      (∀ t ∈ next, 1 ≤ t.span) → (greedyLoop next count).isSome = true := by
  induction n with
  | zero =>
    intro next count hlen hne _
    cases next with
    | nil => exact absurd rfl hne
    | cons t rest => simp at hlen
  | succ n ih =>
    intro next count hlen hne hspan
    rw [greedyLoop]
    cases hmo : maximum_overlap next with
    | none =>
      cases next with
      | nil => exact absurd rfl hne
      | cons t0 rest => simp [maximum_overlap] at hmo
    | some news =>
      obtain ⟨hshr, hsub⟩ := maximum_overlap_shrink hne hspan news hmo
      show (if news.length = 0 then some count
        else if hlt : news.length < next.length then greedyLoop news (count + 1)
        else none).isSome = true
      by_cases hz : news.length = 0
      · simp [hz]
      · rw [if_neg hz, dif_pos hshr]
        exact ih news (count + 1) (by omega) (by
          intro hc
          rw [hc] at hz
          simp at hz) (fun t ht => hspan t (hsub t ht))

/-! Claim theorems. -/

/-- C1: for every goal multiset, candidate list and depth budget (in
particular every positive one), every sequence of multisets emitted by the
anagram search, when its multisets are summed with combine, equals the
goal multiset.  The hypotheses are the LetterMultiset well-formedness
invariants of the inputs. -/
theorem anagram_combineAll_eq_goal (goal : CharList) (words : List CharList)
    (level : Nat) (hg : goal.wf = true) (hw : ∀ w ∈ words, w.wf = true) :
    ∀ seq ∈ anagram goal words level, combineAll seq = goal :=
  anagramF_sound level goal words hg hw

/-- Witness for C1 at goal "ab" with the single candidate "ab" and depth 1:
the search emits exactly the singleton sequence, whose combine-sum is the
goal. -/
theorem anagram_combineAll_eq_goal_witness :
    combineAll [CharList.from_string "ab"] = CharList.from_string "ab" :=
  anagram_combineAll_eq_goal (CharList.from_string "ab") [CharList.from_string "ab"] 1
    (by decide) (by decide) [CharList.from_string "ab"] (by decide)

/-- C2: for well-formed multisets, subtract returns NoMatch exactly when
some letter count of small exceeds big's (including letters absent from
big); FullMatch exactly when the multisets are structurally equal; and
otherwise PartialMatch whose remainder is the letter-wise difference
big minus small and itself satisfies the multiset invariants. -/
theorem subtract_three_way_spec (big small : CharList) (hb : big.wf = true)
    (hs : small.wf = true) :
    (CharList.subtract big small = MatchResult.NoMatch ↔
      ∃ ch, countOf big.list ch < countOf small.list ch) ∧
    (CharList.subtract big small = MatchResult.FullMatch ↔ big = small) ∧
    (∀ r, CharList.subtract big small = MatchResult.PartialMatch r →
      (∀ ch, countOf r.list ch = countOf big.list ch - countOf small.list ch) ∧
      r.wf = true) := by
  refine ⟨subtract_eq_noMatch_iff hb hs, subtract_eq_fullMatch_iff hb hs, ?_⟩
  intro r hr
  refine ⟨?_, subtract_remainder_wf hb hs hr⟩
  intro ch
  obtain ⟨hsub, _, _⟩ := subtract_remainder_inv hr
  have := subtractAux_counts hsub ch
  omega

/-- Witness for C2 at the multisets of "abcde" and "ebcda": equal multisets
give FullMatch. -/
theorem subtract_three_way_spec_witness :
    CharList.subtract (CharList.from_string "abcde") (CharList.from_string "ebcda") =
      MatchResult.FullMatch :=
  (subtract_three_way_spec (CharList.from_string "abcde") (CharList.from_string "ebcda")
    (by decide) (by decide)).2.1.mpr (by decide)

/-- C3: the claim says greedy_score of the empty transposition set is the
baseline score 1, but the code indexes ts[0] in maximum_overlap before any
emptiness check, which panics on the empty vector; greedy_score therefore
panics (modelled by none) instead of returning 1. -/
theorem greedy_score_empty_panics : greedy_score [] = none := by
  rw [greedy_score, greedyLoop]
  rfl

/-- C4 counterexample: for goal "aab" and chosen word "ab" the remainder is
"a"; the claim says the slice ["ab", "b"] is re-filtered against the
remainder, which would keep nothing ("ab" is longer than the remainder and
"b" is not contained in it), but the list the code builds and passes to
the recursive call is filtered against the goal "aab" and keeps both, as
the unfolding of the depth-2 search at this input shows. -/
theorem anagram_refilters_cex :
    CharList.subtract (CharList.from_string "aab") (CharList.from_string "ab") =
      MatchResult.PartialMatch (CharList.from_string "a") ∧
    filter_candidates (CharList.from_string "aab")
        [CharList.from_string "ab", CharList.from_string "b"] =
      [CharList.from_string "ab", CharList.from_string "b"] ∧
    filter_candidates (CharList.from_string "a")
        [CharList.from_string "ab", CharList.from_string "b"] = [] ∧
    anagram (CharList.from_string "aab")
        [CharList.from_string "ab", CharList.from_string "b"] 2 =
      ((anagram (CharList.from_string "a")
          (filter_candidates (CharList.from_string "aab")
            [CharList.from_string "ab", CharList.from_string "b"]) 1).map
        (fun s => CharList.from_string "ab" :: s)) ++
      anagramGo (anagramF 1) (CharList.from_string "aab") [CharList.from_string "b"] := by
  refine ⟨by decide, by decide, by decide, by decide⟩

/-- C4 amended: in the PartialMatch branch the candidate slice from the
current index on is re-filtered against the CURRENT goal (not the
remainder): exactly the candidates of length at most goal.length whose
multiset is contained in the goal survive, sorted by length descending;
pruning against the remainder happens only inside the recursive call via
subtract returning NoMatch. -/
theorem anagram_refilters_against_goal (goal w remains : CharList)
    (rest : List CharList) (l : Nat)
    (h : CharList.subtract goal w = MatchResult.PartialMatch remains) :
    anagram goal (w :: rest) (l + 1) =
      ((anagram remains (filter_candidates goal (w :: rest)) l).map
        (fun s => w :: s)) ++ anagramGo (anagramF l) goal rest ∧
    (∀ c, c ∈ filter_candidates goal (w :: rest) ↔
      (c ∈ w :: rest ∧ c.length ≤ goal.length ∧ CharList.filter goal c = true)) ∧
    List.Sorted lenGE (filter_candidates goal (w :: rest)) := by
  refine ⟨?_, fun c => mem_filter_candidates, List.sorted_insertionSort lenGE _⟩
  show anagramGo (anagramF l) goal (w :: rest) = _
  simp only [anagramGo]
  rw [h]
  rfl

/-- Witness for the amended C4: at goal "aab", word "ab", remainder "a",
the candidate "b" (not contained in the remainder) is in the re-filtered
list because the filter runs against the goal. -/
theorem anagram_refilters_against_goal_witness :
    CharList.from_string "b" ∈ filter_candidates (CharList.from_string "aab")
        [CharList.from_string "ab", CharList.from_string "b"] ↔
      (CharList.from_string "b" ∈ [CharList.from_string "ab", CharList.from_string "b"] ∧
        (CharList.from_string "b").length ≤ (CharList.from_string "aab").length ∧
        CharList.filter (CharList.from_string "aab") (CharList.from_string "b") = true) :=
  (anagram_refilters_against_goal (CharList.from_string "aab") (CharList.from_string "ab")
      (CharList.from_string "a") [CharList.from_string "b"] 0 (by decide)).2.1
    (CharList.from_string "b")

/-- C5 counterexample: with minimum length 4, the word "abcd" has raw byte
length exactly 4; the claim says a word of byte length exactly the minimum
is accepted, but read_words uses a strict comparison and indexes nothing. -/
theorem min_length_gate_cex :
    "abcd".utf8ByteSize = 4 ∧ read_words ["abcd"] 4 = [] :=
  ⟨by decide, by decide⟩

/-- C5 amended: a line is indexed exactly when its raw byte length is
strictly greater than the minimum length m; a word of byte length exactly
m is rejected by the gate. -/
theorem min_length_gate (w : String) (m : Nat) :
    (m < w.utf8ByteSize → read_words [w] m = [(CharList.from_string w, [w])]) ∧
    (w.utf8ByteSize ≤ m → read_words [w] m = []) := by
  constructor
  · intro h
    show readWordsStep m [] w = _
    unfold readWordsStep addWord
    rw [if_pos h]
    simp
  · intro h
    show readWordsStep m [] w = _
    unfold readWordsStep
    rw [if_neg (by omega)]

/-- Witness for the amended C5: a 5-byte word passes a gate of 4 and a
4-byte word does not. -/
theorem min_length_gate_witness :
    read_words ["abcde"] 4 = [(CharList.from_string "abcde", ["abcde"])] ∧
    read_words ["abcd"] 4 = [] :=
  ⟨(min_length_gate "abcde" 4).1 (by decide), (min_length_gate "abcd" 4).2 (by decide)⟩

/-- C6 counterexample: reading the same accepted line twice stores the word
twice in its bucket, so the bucket ["hello", "hello"] is not
duplicate-free. -/
theorem bucket_dedup_cex :
    read_words ["hello", "hello"] 4 =
      [(CharList.from_string "hello", ["hello", "hello"])] ∧
    ¬ (["hello", "hello"] : List String).Nodup :=
  ⟨by decide, by decide⟩

/-- C6 amended: keys are unique, and the bucket stored under a key is the
insertion-ordered list of all accepted line occurrences with that
fingerprint — buckets are not deduplicated, so a line occurring twice
contributes its word twice. -/
theorem buckets_characterization (lines : List String) (m : Nat) :
    ((read_words lines m).map Prod.fst).Nodup ∧
    ∀ k, bucketOf (read_words lines m) k =
      lines.filter
        (fun w => decide (m < w.utf8ByteSize) && decide (CharList.from_string w = k)) := by
  constructor
  · exact keys_nodup_foldl m lines [] (by simp)
  · intro k
    have h := bucketOf_foldl m lines [] k
    simpa [bucketOf, lookupKey] using h

/-- C7 counterexample: the line "Abc" is indexed under the multiset of the
raw string, which differs from the multiset of its lowercased form "abc",
and words differing only in case get distinct keys — no lowercasing
happens before fingerprinting. -/
theorem lowercase_fingerprint_cex :
    read_words ["Abc"] 0 = [(CharList.from_string "Abc", ["Abc"])] ∧
    CharList.from_string "Abc" ≠ CharList.from_string "abc" ∧
    (read_words ["Abc", "abc"] 0).length = 2 :=
  ⟨by decide, by decide, by decide⟩

/-- C7 amended: no lowercasing is performed: every word stored in a bucket
sits under the multiset of the raw line, and the driver builds the goal
multiset from the raw goal string as given. -/
theorem index_key_is_raw_multiset (lines : List String) (m : Nat) (k : CharList)
    (b : List String) (w : String) (hmem : (k, b) ∈ read_words lines m)
    (hw : w ∈ b) :
    k = CharList.from_string w ∧ main_goal w = CharList.from_string w :=
  ⟨key_raw_foldl m lines [] (by simp) k b hmem w hw, rfl⟩

/-- Witness for the amended C7 on the single line "Abc". -/
theorem index_key_is_raw_multiset_witness :
    CharList.from_string "Abc" = CharList.from_string "Abc" ∧
    main_goal "Abc" = CharList.from_string "Abc" :=
  index_key_is_raw_multiset ["Abc"] 0 (CharList.from_string "Abc") ["Abc"] "Abc"
    (by decide) (by decide)

/-- C8: for well-formed multisets, the boolean containment check filter
returns true exactly when subtract does not return NoMatch. -/
theorem filter_iff_subtract_ne_noMatch (big small : CharList) (hb : big.wf = true)
    (hs : small.wf = true) :
    CharList.filter big small = true ↔
      CharList.subtract big small ≠ MatchResult.NoMatch := by
  rw [CharList.filter, filterAux_eq_isSome]
  unfold CharList.subtract
  cases h : subtractAux big.list small.list with
  | none => simp
  | some r =>
    cases r with
    | nil => simp
    | cons c t => simp

/-- Witness for C8 at the multisets of "abcdef" and "ebcda". -/
theorem filter_iff_subtract_ne_noMatch_witness :
    CharList.subtract (CharList.from_string "abcdef") (CharList.from_string "ebcda") ≠
      MatchResult.NoMatch :=
  (filter_iff_subtract_ne_noMatch (CharList.from_string "abcdef")
    (CharList.from_string "ebcda") (by decide) (by decide)).mp (by decide)

/-- C9: on a non-empty transposition vector whose spans are all at least 1,
maximum_overlap succeeds (no panic) and returns a strictly shorter vector
(the selected maximum covers itself and is removed), and consequently
greedy_score terminates with a value (isSome, never the none that models
panic or divergence). -/
theorem maximum_overlap_shrinks_and_greedy_terminates (ts : List Transposition)
    (h1 : ts ≠ []) (h2 : ∀ t ∈ ts, 1 ≤ t.span) :
    (maximum_overlap ts).isSome = true ∧
    ((maximum_overlap ts).map List.length).getD ts.length < ts.length ∧
    (greedy_score ts).isSome = true := by
  cases hmo : maximum_overlap ts with
  | none =>
    cases ts with
    | nil => exact absurd rfl h1
    | cons t0 rest => simp [maximum_overlap] at hmo
  | some news =>
    obtain ⟨hshr, _⟩ := maximum_overlap_shrink h1 h2 news hmo
    exact ⟨rfl, by simpa using hshr,
      greedyLoop_isSome ts.length ts 1 (le_refl _) h1 h2⟩

/-- Witness for C9 on the single transposition (0, 0, 1). -/
theorem maximum_overlap_shrinks_witness :
    (maximum_overlap [Transposition.mk 0 0 1]).isSome = true ∧
    ((maximum_overlap [Transposition.mk 0 0 1]).map List.length).getD
        [Transposition.mk 0 0 1].length < [Transposition.mk 0 0 1].length ∧
    (greedy_score [Transposition.mk 0 0 1]).isSome = true :=
  maximum_overlap_shrinks_and_greedy_terminates [Transposition.mk 0 0 1]
    (by decide) (by decide)

/-- C10: the empty multiset is contained in every well-formed multiset:
filter(big, empty) is true, and subtract(big, empty) is FullMatch when big
is empty and a PartialMatch carrying a structural copy of big otherwise. -/
theorem empty_contained_in_every (big : CharList) (h : big.wf = true) :
    CharList.filter big CharList.new = true ∧
    (big.list = [] → CharList.subtract big CharList.new = MatchResult.FullMatch) ∧
    (big.list ≠ [] → CharList.subtract big CharList.new = MatchResult.PartialMatch big) := by
  refine ⟨?_, ?_, ?_⟩
  · rw [CharList.filter, filterAux_eq_isSome]
    show (subtractAux big.list []).isSome = true
    rw [subtractAux_nil_right]
    rfl
  · intro hnil
    unfold CharList.subtract
    show (match subtractAux big.list [] with
      | none => MatchResult.NoMatch
      | some [] => MatchResult.FullMatch
      | some (c :: t) =>
        MatchResult.PartialMatch
          { length := big.length - CharList.new.length, list := c :: t }) = _
    rw [subtractAux_nil_right, hnil]
  · intro hne
    unfold CharList.subtract
    show (match subtractAux big.list [] with
      | none => MatchResult.NoMatch
      | some [] => MatchResult.FullMatch
      | some (c :: t) =>
        MatchResult.PartialMatch
          { length := big.length - CharList.new.length, list := c :: t }) = _
    rw [subtractAux_nil_right]
    cases hl : big.list with
    | nil => exact absurd hl hne
    | cons c t =>
      show MatchResult.PartialMatch
          { length := big.length - CharList.new.length, list := c :: t } = _
      refine congrArg MatchResult.PartialMatch (CharList.eq_of_fields ?_ ?_)
      · show big.length - 0 = big.length
        omega
      · exact hl.symm

/-- Witness for C10 at the non-empty multiset of "ab". -/
theorem empty_contained_in_every_witness :
    CharList.filter (CharList.from_string "ab") CharList.new = true ∧
    CharList.subtract (CharList.from_string "ab") CharList.new =
      MatchResult.PartialMatch (CharList.from_string "ab") := by
  have h := empty_contained_in_every (CharList.from_string "ab") (by decide)
  exact ⟨h.1, h.2.2 (by decide)⟩
